import Mathlib

/-!
Verification development for the splitwavepy eigenvalue grid-search core
(`splitwavepy/eigval/eigval.py` and `splitwavepy/eigval/eigenM.py`).

The two source files under verification call into a `core` module
(`core.rotate`, `core.lag`, `core.chop`, `core.unsplit`, `core.max_idx`)
and a `pair` module that are not part of the excerpt.  Wherever a claim is
decided by the excerpted code itself, those collaborator operations are
taken as opaque parameters; wherever a claim is decided by a missing
collaborator, the collaborator is modelled from the specification and the
definition says so in its doc string.

Conventions of the shallow embedding:
* machine floats become exact real numbers `ℝ` (so no rounding error is
  modelled); angles in degrees are `ℚ`, sample shifts are `ℤ`;
* a fallible float computation (a NaN or infinity produced by an invalid
  quantile lookup or a division by zero) is modelled with `Option`;
* numpy arrays become `List` values, 2-D arrays become `List (List _)`
  in row-major order, and `np.sum`/`np.max` become list folds.
-/

namespace Splitwavepy

/-- Analysis-window descriptor: sample count, offset, optional taper, as built
by `Window(nsamps, offset, tukey=None)` in `eigval.grideigval`. -/
structure Window where
  nsamps : ℕ
  offset : ℤ
  tukey : Option ℚ
  deriving Repr, DecidableEq

/-- A trace pair: the two channel sample sequences handled by
`eigval.grideigval` as separate arguments `x`, `y`. -/
abbrev TracePair := List ℝ × List ℝ

/-- Round to the nearest integer with ties to even, the behaviour of
`np.rint` used in the default-lag construction. -/
def rint (q : ℚ) : ℤ :=
  if q - ⌊q⌋ < 1/2 then ⌊q⌋
  else if 1/2 < q - ⌊q⌋ then ⌊q⌋ + 1
  else if ⌊q⌋ % 2 = 0 then ⌊q⌋ else ⌊q⌋ + 1

/-- Embedding of `np.linspace(a, b, n)`: `n` evenly spaced rationals from
`a` to `b` inclusive. -/
def linspace (a b : ℚ) (n : ℕ) : List ℚ :=
  (List.range n).map (fun i : ℕ => a + (i : ℚ) * (b - a) / ((n : ℚ) - 1))

/-- Embedding of `np.arange(a, b, s)` for a positive step `s`. -/
def arange (a b s : ℚ) : List ℚ :=
  (List.range (⌈(b - a) / s⌉.toNat)).map (fun i : ℕ => a + (i : ℚ) * s)

/-- Embedding of `np.unique` on integer arrays: the sorted list of distinct
values, ascending. -/
def npUnique (l : List ℤ) : List ℤ :=
  (l.insertionSort (· ≤ ·)).dedup

/-- The evened `maxlag` computed by the default-lag branch of
`eigval.grideigval`: `maxlag = int(x.size/10)`, bumped to the next even
integer when odd. -/
def maxlagDef (N : ℕ) : ℕ :=
  if (N / 10) % 2 = 0 then N / 10 else N / 10 + 1

/-- The raw (pre-`np.unique`) default lag list of `eigval.grideigval`:
`2 * np.rint(np.linspace(0, 0.5*maxlag, 30))`. -/
def defaultLagsRaw (N : ℕ) : List ℤ :=
  (linspace 0 ((maxlagDef N : ℚ) / 2) 30).map (fun q => 2 * rint q)

/-- The default delay-candidate grid of `eigval.grideigval`
(`np.unique(lags).astype(int)` applied to `defaultLagsRaw`). -/
def defaultLags (N : ℕ) : List ℤ :=
  npUnique (defaultLagsRaw N)

/-- The default angle-candidate grid of `eigval.grideigval`:
`np.arange(-90, 90, 3)`. -/
def defaultDegs : List ℚ :=
  arange (-90) 90 3

/-- The default analysis window of `eigval.grideigval`: about half the trace
length, bumped to odd, with zero offset and no taper. -/
def defaultWindow (N : ℕ) : Window :=
  ⟨if (N / 2) % 2 = 1 then N / 2 else N / 2 + 1, 0, none⟩

/-- Configuration record for `eigval.grideigval`: each optional keyword
argument of the source becomes an `Option` field (`none` means the keyword
is absent and the default is derived). -/
structure GridConfig where
  lags : Option (List ℤ)
  degs : Option (List ℚ)
  window : Option Window
  rcvcorr : Option (ℚ × ℤ)
  srccorr : Option (ℚ × ℤ)

/-- The delay grid `grideigval` actually searches: the `lags` keyword if
given, else the derived default. -/
def resolvedLags (cfg : GridConfig) (N : ℕ) : List ℤ :=
  cfg.lags.getD (defaultLags N)

/-- The angle grid `grideigval` actually searches: the `degs` keyword if
given, else the derived default. -/
def resolvedDegs (cfg : GridConfig) : List ℚ :=
  cfg.degs.getD defaultDegs

/-- The analysis window `grideigval` actually uses: the `window` keyword if
given, else the derived default. -/
def resolvedWindow (cfg : GridConfig) (N : ℕ) : Window :=
  cfg.window.getD (defaultWindow N)

/-- Collaborator operations of the `core` module used by `grideigval`
(`core.rotate`, `core.lag`, `core.chop`, `core.unsplit`).  They live in
`splitwavepy/core/core.py`, which is outside the excerpt, so the grid
search is embedded parametrically in them. -/
structure CoreOps where
  rotate : TracePair → ℚ → TracePair
  lag : TracePair → ℤ → TracePair
  unsplit : TracePair → ℚ → ℤ → TracePair
  chop : TracePair → Window → TracePair

/-- The trace pair after the optional receiver correction, which
`grideigval` applies once, before either loop:
`if 'rcvcorr' in kwargs: x, y = core.unsplit(x, y, *kwargs['rcvcorr'])`. -/
def rcvCorrected (ops : CoreOps) (x y : List ℝ) (cfg : GridConfig) : TracePair :=
  match cfg.rcvcorr with
  | some c => ops.unsplit (x, y) c.1 c.2
  | none => (x, y)

/-- The per-cell source-correction closure of `grideigval`: unsplit by the
source-correction parameters when configured, otherwise the identity. -/
def srccorrApply (ops : CoreOps) (cfg : GridConfig) (p : TracePair) : TracePair :=
  match cfg.srccorr with
  | some c => ops.unsplit p c.1 c.2
  | none => p

/-- The windowed pair evaluated at grid cell `(j, i)` (delay index `j`,
angle index `i`) by the nested loops of `grideigval`: rotate the
receiver-corrected pair to angle candidate `i`, remove delay candidate `j`
(`lag` by its negative), post-apply the source correction, chop to the
analysis window. -/
def cellInput (ops : CoreOps) (x y : List ℝ) (cfg : GridConfig) (j i : ℕ) : TracePair :=
  let lagsv := resolvedLags cfg x.length
  let degsv := resolvedDegs cfg
  let w := resolvedWindow cfg x.length
  let txy := ops.rotate (rcvCorrected ops x y cfg) (degsv.getD i 0)
  let uxy := ops.lag txy (-(lagsv.getD j 0))
  let uxy := srccorrApply ops cfg uxy
  ops.chop uxy w

/-- Mean of a sample sequence, as used by `np.cov`. -/
noncomputable def mean (l : List ℝ) : ℝ := l.sum / l.length

/-- Entry `C[0,0]` of the 2×2 sample covariance matrix `np.cov` computes for
two stacked channels: centered sum of squares over `n - 1`. -/
noncomputable def cov11 (xs : List ℝ) : ℝ :=
  (xs.map (fun v => (v - mean xs) ^ 2)).sum / ((xs.length : ℝ) - 1)

/-- Off-diagonal entry `C[0,1] = C[1,0]` of the 2×2 sample covariance
matrix: centered cross products over `n - 1`. -/
noncomputable def cov12 (xs ys : List ℝ) : ℝ :=
  ((xs.zip ys).map (fun p => (p.1 - mean xs) * (p.2 - mean ys))).sum / ((xs.length : ℝ) - 1)

/-- Embedding of `eigvalcov`:
`np.sort(np.linalg.eigvals(np.cov(data)))` on the 2×N stack of the two
channels.  For the symmetric 2×2 covariance matrix `[[a, b], [b, c]]` the
eigenvalues are the roots `(t ± sqrt(t² - 4d))/2` of the characteristic
polynomial (`t` the trace, `d` the determinant); the discriminant equals
`(a - c)² + 4b² ≥ 0`, so both roots are real, and the ascending sort puts
the `-` root first (λ2) and the `+` root second (λ1). -/
noncomputable def eigvalcov (xs ys : List ℝ) : ℝ × ℝ :=
  let a := cov11 xs
  let c := cov11 ys
  let b := cov12 xs ys
  let t := a + c
  let d := a * c - b * b
  let s := Real.sqrt (t ^ 2 - 4 * d)
  ((t - s) / 2, (t + s) / 2)

/-- Characteristic polynomial of the 2×2 sample covariance matrix of the
two channels, evaluated at `z`: `z` is an eigenvalue of the covariance
matrix exactly when this vanishes. -/
noncomputable def covCharval (xs ys : List ℝ) (z : ℝ) : ℝ :=
  (cov11 xs - z) * (cov11 ys - z) - cov12 xs ys * cov12 xs ys

/-- Embedding of the result tuple of `eigval.grideigval`: the meshgrid
angle matrix, the meshgrid delay matrix, the λ1 surface, the λ2 surface
and the resolved window.  Each surface is row-major with rows indexed by
delay candidates and columns by angle candidates, entry `(j, i)` holding
the eigenvalue of the windowed pair `cellInput ops x y cfg j i`; the
source fills the same arrays through its nested loops (outer loop over
angle columns with the rotation hoisted, inner loop over delay rows),
which computes cell by cell exactly this value since the collaborator
operations are pure. -/
noncomputable def grideigval (ops : CoreOps) (eig : TracePair → ℝ × ℝ)
    (x y : List ℝ) (cfg : GridConfig) :
    List (List ℚ) × List (List ℤ) × List (List ℝ) × List (List ℝ) × Window :=
  let lagsv := resolvedLags cfg x.length
  let degsv := resolvedDegs cfg
  let w := resolvedWindow cfg x.length
  let nl := lagsv.length
  let nd := degsv.length
  let degsM := (List.range nl).map (fun _ => degsv)
  let lagsM := (List.range nl).map (fun j => (List.range nd).map (fun _ => lagsv.getD j 0))
  let lam1 := (List.range nl).map (fun j =>
    (List.range nd).map (fun i => (eig (cellInput ops x y cfg j i)).2))
  let lam2 := (List.range nl).map (fun j =>
    (List.range nd).map (fun i => (eig (cellInput ops x y cfg j i)).1))
  (degsM, lagsM, lam1, lam2, w)

/-- Entry `(j, i)` of a row-major 2-D array, with numpy's behaviour
replaced by a default of `d` out of bounds. -/
def get2 {α : Type} (m : List (List α)) (j i : ℕ) (d : α) : α :=
  (m.getD j []).getD i d

/-- Row-major enumeration of the grid cells of a pair of surfaces:
`((delay index, angle index), (λ1 value, λ2 value))`, in delay-major scan
order (all angle columns of delay row 0 first). -/
def cells (lam1 lam2 : List (List ℝ)) : List ((ℕ × ℕ) × (ℝ × ℝ)) :=
  (List.range lam1.length).flatMap (fun j =>
    (List.range (lam1.headD []).length).map (fun i =>
      ((j, i), (get2 lam1 j i 0, get2 lam2 j i 0))))

/-- A grid cell competes for the optimum unless it is a zero-variance cell
(λ1 = λ2 = 0, whose quality score λ1 / λ2 is undefined). -/
def competitive (v : ℝ × ℝ) : Prop := ¬(v.1 = 0 ∧ v.2 = 0)

/-- One step of the scan for the best cell: keep the incumbent unless the
candidate has a strictly larger λ1 / λ2 score, so ties resolve to the
first occurrence in scan order. -/
noncomputable def bestStep (acc : Option ((ℕ × ℕ) × (ℝ × ℝ))) (c : (ℕ × ℕ) × (ℝ × ℝ)) :
    Option ((ℕ × ℕ) × (ℝ × ℝ)) :=
  match acc with
  | none => some c
  | some b => if b.2.1 / b.2.2 < c.2.1 / c.2.2 then some c else some b

/-- Modelled from the spec: `core.max_idx`, the optimum-location step of
`EigenM.__init__` (`maxloc = core.max_idx(self.lam1/self.lam2)`), lives in
`splitwavepy/core/core.py`, which is outside the excerpt.  Per the spec it
returns the grid index maximizing the elementwise ratio λ1/λ2, breaking
ties by first occurrence in row-major (delay-major, then angle) scan
order, and treating zero-variance cells (λ1 = λ2 = 0, undefined ratio) as
non-competitive. -/
noncomputable def max_idx (lam1 lam2 : List (List ℝ)) : Option (ℕ × ℕ) :=
  let cand := (cells lam1 lam2).filter
    (fun c => @decide (competitive c.2) (Classical.propDecidable _))
  (cand.foldl bestStep none).map Prod.fst

/-- Column sums of a row-major 2-D array:
`np.sum(vals, axis=0)`, used for `self.fastprofile`. -/
noncomputable def colSums (m : List (List ℝ)) : List ℝ :=
  (List.range (m.headD []).length).map (fun i => (m.map (fun row => row.getD i 0)).sum)

/-- The elementwise quality-score surface `self.lam1 / self.lam2`. -/
noncomputable def scoreSurf (lam1 lam2 : List (List ℝ)) : List (List ℝ) :=
  List.zipWith (fun r1 r2 => List.zipWith (fun a b => a / b) r1 r2) lam1 lam2

/-- The angle profile `self.fastprofile = np.sum(self.lam1/self.lam2, axis=0)`. -/
noncomputable def fastprofile (lam1 lam2 : List (List ℝ)) : List ℝ :=
  colSums (scoreSurf lam1 lam2)

/-- Embedding of `np.roll(a, k)` for `k ≥ 0`: circular right shift, entry
`i` of the result coming from entry `(i - k) mod n` of the input. -/
def roll {α : Type} (l : List α) (k : ℕ) : List α :=
  l.drop (l.length - k % l.length) ++ l.take (l.length - k % l.length)

/-- Embedding of `eigenM.ni`: self-similarity of the angle profile under a
half-grid (90°) roll, `sum((p - roll p)²) / sum(p * roll p)`, with the
roll distance `int(M.degs.shape[1]/2)` equal to half the profile length. -/
noncomputable def ni (profile : List ℝ) : ℝ :=
  ((List.zipWith (fun a b => a - b) profile (roll profile (profile.length / 2))).map
      (fun v => v ^ 2)).sum
    / (List.zipWith (fun a b => a * b) profile (roll profile (profile.length / 2))).sum

/-- Maximum of a nonempty list, the embedding of `np.max` (`np.max` raises
on an empty array; the `0` default for `[]` is never used under the
nonemptiness hypotheses of the theorems below). -/
noncomputable def listMax (l : List ℝ) : ℝ :=
  match l with
  | [] => 0
  | h :: t => t.foldl max h

/-- Minimum of a nonempty list, the embedding of `ndarray.min`. -/
noncomputable def listMin (l : List ℝ) : ℝ :=
  match l with
  | [] => 0
  | h :: t => t.foldl min h

/-- The second signal-to-noise estimate of `EigenM.__init__`:
`self.snr = np.max((self.lam1 - self.lam2) / (2 * self.lam2))`, over the
flattened surfaces. -/
noncomputable def snrSurfMax (lam1 lam2 : List (List ℝ)) : ℝ :=
  listMax (List.zipWith (fun a b => (a - b) / (2 * b)) lam1.flatten lam2.flatten)

/-- Embedding of `eigval.ftest`.  The F-distribution quantile lookup
`scipy.stats.f.ppf(1-alpha, k, ndf)` is an external collaborator and is
passed in as `ppf q k d`, returning `none` where scipy returns NaN
(invalid parameters, in particular a non-positive denominator degrees of
freedom `d ≤ 0`).  The float division `k/(ndf-k)` of the source produces
an infinity when `ndf = k`; a non-finite float is modelled as `none`.
The source itself contains no guard on `ndf`. -/
noncomputable def ftest (ppf : ℝ → ℝ → ℝ → Option ℝ) (lam2 : List (List ℝ))
    (ndf alpha : ℝ) : Option ℝ :=
  match ppf (1 - alpha) 2 ndf with
  | none => none
  | some F =>
    if ndf - 2 = 0 then none
    else some (listMin lam2.flatten * (1 + 2 / (ndf - 2) * F))

/-- Stand-in for the external quantile oracle `scipy.stats.f.ppf (0.95, 2, ·)`:
defined (finite) for every positive denominator degrees of freedom and
NaN (`none`) otherwise, which is scipy's documented domain behaviour.
The concrete finite value plays no role in the theorems that use it. -/
noncomputable def ppfStub (q k d : ℝ) : Option ℝ :=
  if d ≤ 0 then none else some (q + k + 199)

/-- Embedding of `np.fft.fft`: the discrete Fourier transform, bin `k`
being the sum over samples `n` of `y[n] · exp(-2πi·k·n/N)`. -/
noncomputable def dft (y : List ℝ) (k : ℕ) : ℂ :=
  ∑ n ∈ Finset.range y.length,
    (y.getD n 0 : ℂ) * Complex.exp (-(2 * Real.pi * Complex.I * k * n) / y.length)

/-- The amplitude spectrum `amp = np.absolute(Y)` of `eigval.ndf`, as the
list of moduli of the DFT bins. -/
noncomputable def ampList (y : List ℝ) : List ℝ :=
  (List.range y.length).map (fun k => Complex.abs (dft y k))

/-- The weight array of `eigval.ndf`: `a = np.ones(Y.size)` with
`a[0] = a[-1] = 0.5`. -/
noncomputable def weightList (N : ℕ) : List ℝ :=
  ((List.replicate N (1 : ℝ)).set 0 (1/2)).set (N - 1) (1/2)

/-- The core of `eigval.ndf` after the optional detrend/window steps:
`E2 = sum(a * amp**2)`, `E4 = sum((4 * a**2 / 3) * amp**4)`,
`ndf = 2 * (2 * E2**2 / E4 - 1)`. -/
noncomputable def ndfCore (y : List ℝ) : ℝ :=
  2 * (2 * (List.zipWith (fun w v => w * v ^ 2) (weightList y.length) (ampList y)).sum ^ 2
      / (List.zipWith (fun w v => 4 * w ^ 2 / 3 * v ^ 4) (weightList y.length) (ampList y)).sum
    - 1)

/-- The optional preprocessing of `eigval.ndf`: detrend when requested
(`scipy.signal.detrend`, an external collaborator passed as `detrendF`),
then chop to the window when one is given (`core.chop`, likewise passed
as `chopNoise`). -/
def noiseInput (detrendF : List ℝ → List ℝ) (chopNoise : Window → List ℝ → List ℝ)
    (y : List ℝ) (window : Option Window) (detrend : Bool) : List ℝ :=
  match window with
  | some w => chopNoise w (if detrend then detrendF y else y)
  | none => if detrend then detrendF y else y

/-- Embedding of `eigval.ndf(y, window, detrend)`: preprocess, then apply
the spectral degrees-of-freedom formula. -/
noncomputable def ndf (detrendF : List ℝ → List ℝ) (chopNoise : Window → List ℝ → List ℝ)
    (y : List ℝ) (window : Option Window) (detrend : Bool) : ℝ :=
  ndfCore (noiseInput detrendF chopNoise y window detrend)

/-- The endpoint weighting stated by the spec: DFT bin `k` of an `N`-bin
spectrum carries weight one half at the two endpoint bins and one
elsewhere. -/
noncomputable def endpointWeight (N k : ℕ) : ℝ :=
  if k = 0 ∨ k = N - 1 then 1/2 else 1

/-- The second moment `E2` of the amplitude spectrum written as an indexed
sum with the endpoint weighting explicit. -/
noncomputable def E2spec (y : List ℝ) : ℝ :=
  ∑ k ∈ Finset.range y.length, endpointWeight y.length k * Complex.abs (dft y k) ^ 2

/-- The fourth moment `E4` of the amplitude spectrum written as an indexed
sum with the endpoint weighting explicit. -/
noncomputable def E4spec (y : List ℝ) : ℝ :=
  ∑ k ∈ Finset.range y.length,
    4 * endpointWeight y.length k ^ 2 / 3 * Complex.abs (dft y k) ^ 4

/-- Paired-trace container state, as visible to a caller of
`EigenM.__init__`: the two channel sample sequences and the orientation
angle the pair is currently rotated to.  The container class itself
(`splitwavepy/core/pair.py`) is outside the excerpt. -/
structure Pair where
  x : List ℝ
  y : List ℝ
  ang : ℚ

/-- Modelled from the spec: the sample rotation of the paired-trace
container's `rotate(angle)` operation (spec §6), which is implemented in
the missing `splitwavepy/core` modules.  Rotation by `phi` degrees mixes
the two channels through the plane rotation matrix. -/
noncomputable def rotateSamples (phi : ℚ) (x y : List ℝ) : List ℝ × List ℝ :=
  (List.zipWith (fun a b => Real.cos ((phi : ℝ) * Real.pi / 180) * a
      + Real.sin ((phi : ℝ) * Real.pi / 180) * b) x y,
   List.zipWith (fun a b => -(Real.sin ((phi : ℝ) * Real.pi / 180)) * a
      + Real.cos ((phi : ℝ) * Real.pi / 180) * b) x y)

/-- Modelled from the spec: `Pair.rotateto`, the in-place canonicalization
"ensure trace1 at zero angle" invoked by `EigenM.__init__` as
`self.data.rotateto(0)` (spec §4.5 step 1: canonicalize the trace pair to
a zero-degree reference rotation before searching).  It rotates the stored
samples from the current orientation to the target orientation and
records the new orientation; the updated state is the state of the very
`Pair` object the caller handed in, because line 31 of `eigenM.py`
(`self.data = args[0]`) aliases rather than copies it. -/
noncomputable def rotateto (target : ℚ) (p : Pair) : Pair :=
  ⟨(rotateSamples (target - p.ang) p.x p.y).1,
   (rotateSamples (target - p.ang) p.x p.y).2, target⟩

/-- The caller's pair as it stands after `EigenM.__init__` returns: the
constructor stores the caller's `Pair` by reference and then canonicalizes
it in place with `self.data.rotateto(0)`; no later step writes to it. -/
noncomputable def eigenMFinalData (p : Pair) : Pair :=
  rotateto 0 p

/-! ### Helper lemmas -/

theorem getD_range_map {α : Type} (n : ℕ) (f : ℕ → α) (k : ℕ) (d : α) (h : k < n) :
    ((List.range n).map f).getD k d = f k := by
  rw [List.getD_eq_getElem?_getD, List.getElem?_eq_getElem (by simpa using h)]
  simp

theorem sum_map_getD {α : Type} (l : List α) (f : α → ℝ) (d : α) :
    (l.map f).sum = ∑ i ∈ Finset.range l.length, f (l.getD i d) := by
  induction l with
  | nil => simp
  | cons h t ih =>
    simp only [List.map_cons, List.sum_cons, List.length_cons, Finset.sum_range_succ',
      List.getD_cons_succ, List.getD_cons_zero, ih]
    exact add_comm _ _

theorem getD_zip (xs ys : List ℝ) (i : ℕ) (hi : i < xs.length)
    (hlen : ys.length = xs.length) :
    (xs.zip ys).getD i (0, 0) = (xs.getD i 0, ys.getD i 0) := by
  have hz : i < (xs.zip ys).length := by
    rw [List.length_zip, hlen, min_self]
    exact hi
  rw [List.getD_eq_getElem?_getD, List.getElem?_eq_getElem hz,
    List.getD_eq_getElem?_getD, List.getElem?_eq_getElem hi,
    List.getD_eq_getElem?_getD, List.getElem?_eq_getElem (hlen ▸ hi)]
  simp [List.getElem_zip]

/-- A trace pair on which `np.cov` is well defined: equal channel lengths
of at least two samples. -/
def goodPair (p : TracePair) : Prop :=
  p.2.length = p.1.length ∧ 2 ≤ p.1.length

/-- Core contract of the covariance eigensolver: on a well-formed pair the
two returned values are roots of the covariance characteristic polynomial,
sorted ascending, and nonnegative. -/
theorem eigvalcov_spec (xs ys : List ℝ) (hlen : ys.length = xs.length)
    (h2 : 2 ≤ xs.length) :
    covCharval xs ys (eigvalcov xs ys).1 = 0 ∧
    covCharval xs ys (eigvalcov xs ys).2 = 0 ∧
    0 ≤ (eigvalcov xs ys).1 ∧
    (eigvalcov xs ys).1 ≤ (eigvalcov xs ys).2 := by
  set n := xs.length with hn
  have hn2 : (2 : ℝ) ≤ (n : ℝ) := by exact_mod_cast h2
  have hpos : (0 : ℝ) < (n : ℝ) - 1 := by linarith
  set u : ℕ → ℝ := fun i => xs.getD i 0 - mean xs with hu
  set v : ℕ → ℝ := fun i => ys.getD i 0 - mean ys with hv
  set A := ∑ i ∈ Finset.range n, u i ^ 2 with hA
  set C := ∑ i ∈ Finset.range n, v i ^ 2 with hC
  set B := ∑ i ∈ Finset.range n, u i * v i with hB
  have ha' : cov11 xs = A / ((n : ℝ) - 1) := by
    rw [cov11, sum_map_getD xs _ 0]
  have hc' : cov11 ys = C / ((n : ℝ) - 1) := by
    rw [cov11, sum_map_getD ys _ 0, hlen, hC]
  have hb' : cov12 xs ys = B / ((n : ℝ) - 1) := by
    rw [cov12, sum_map_getD (xs.zip ys) _ (0, 0)]
    rw [List.length_zip, hlen, hn, min_self]
    congr 1
    refine Finset.sum_congr rfl (fun i hi => ?_)
    rw [getD_zip xs ys i (Finset.mem_range.mp hi) hlen]
  have hAnn : 0 ≤ A := Finset.sum_nonneg (fun i _ => sq_nonneg _)
  have hCnn : 0 ≤ C := Finset.sum_nonneg (fun i _ => sq_nonneg _)
  have hCS : B ^ 2 ≤ A * C := by
    have := Finset.sum_mul_sq_le_sq_mul_sq (Finset.range n) u v
    rw [← hA, ← hC, ← hB] at this
    exact this
  set a := cov11 xs
  set c := cov11 ys
  set b := cov12 xs ys
  have ha0 : 0 ≤ a := by rw [ha']; exact div_nonneg hAnn hpos.le
  have hc0 : 0 ≤ c := by rw [hc']; exact div_nonneg hCnn hpos.le
  have hdval : a * c - b * b = (A * C - B * B) / (((n : ℝ) - 1) * ((n : ℝ) - 1)) := by
    rw [ha', hc', hb']
    field_simp
  have hd0 : 0 ≤ a * c - b * b := by
    rw [hdval]
    apply div_nonneg
    · nlinarith [hCS]
    · positivity
  have hD : 0 ≤ (a + c) ^ 2 - 4 * (a * c - b * b) := by
    nlinarith [sq_nonneg (a - c), sq_nonneg b]
  have hsq : Real.sqrt ((a + c) ^ 2 - 4 * (a * c - b * b)) ^ 2
      = (a + c) ^ 2 - 4 * (a * c - b * b) := Real.sq_sqrt hD
  have hs0 : 0 ≤ Real.sqrt ((a + c) ^ 2 - 4 * (a * c - b * b)) := Real.sqrt_nonneg _
  have ht0 : 0 ≤ a + c := add_nonneg ha0 hc0
  have hsle : Real.sqrt ((a + c) ^ 2 - 4 * (a * c - b * b)) ≤ a + c := by
    have h1 : (a + c) ^ 2 - 4 * (a * c - b * b) ≤ (a + c) ^ 2 := by nlinarith [hd0]
    calc Real.sqrt ((a + c) ^ 2 - 4 * (a * c - b * b))
        ≤ Real.sqrt ((a + c) ^ 2) := Real.sqrt_le_sqrt h1
      _ = a + c := by rw [Real.sqrt_sq ht0]
  have e1 : (eigvalcov xs ys).1
      = ((a + c) - Real.sqrt ((a + c) ^ 2 - 4 * (a * c - b * b))) / 2 := rfl
  have e2 : (eigvalcov xs ys).2
      = ((a + c) + Real.sqrt ((a + c) ^ 2 - 4 * (a * c - b * b))) / 2 := rfl
  refine ⟨?_, ?_, ?_, ?_⟩
  · rw [e1, covCharval]
    linear_combination (1/4 : ℝ) * hsq
  · rw [e2, covCharval]
    linear_combination (1/4 : ℝ) * hsq
  · rw [e1]
    linarith
  · rw [e1, e2]
    linarith

/-- Entry `(j, i)` of either surface produced by `grideigval` is the
eigensolver output on the windowed cell pair. -/
theorem grideigval_cell_eq (ops : CoreOps) (eig : TracePair → ℝ × ℝ)
    (x y : List ℝ) (cfg : GridConfig) (j i : ℕ)
    (hj : j < (resolvedLags cfg x.length).length)
    (hi : i < (resolvedDegs cfg).length) :
    get2 (grideigval ops eig x y cfg).2.2.2.1 j i 0 = (eig (cellInput ops x y cfg j i)).1 ∧
    get2 (grideigval ops eig x y cfg).2.2.1 j i 0 = (eig (cellInput ops x y cfg j i)).2 := by
  unfold grideigval get2
  constructor
  · rw [getD_range_map _ _ _ _ hj, getD_range_map _ _ _ _ hi]
  · rw [getD_range_map _ _ _ _ hj, getD_range_map _ _ _ _ hi]

/-! ### Claim theorems -/

/-- C1.  For every collaborator-operation instantiation, input trace pair
and configuration, the grid search performs its steps in the specified
order: entry `(j, i)` of the λ2 surface (and likewise λ1) is the
smaller (larger) output of the eigensolver applied to the pair obtained by
taking the input pair with the receiver correction applied once up front,
rotating it to angle candidate `i`, lagging it by the negative of delay
candidate `j`, then applying the source correction, then chopping to the
analysis window. -/
theorem grideigval_cell_order (ops : CoreOps) (eig : TracePair → ℝ × ℝ)
    (x y : List ℝ) (cfg : GridConfig) (j i : ℕ)
    (hj : j < (resolvedLags cfg x.length).length)
    (hi : i < (resolvedDegs cfg).length) :
    get2 (grideigval ops eig x y cfg).2.2.2.1 j i 0 =
      (eig (ops.chop
        (srccorrApply ops cfg
          (ops.lag
            (ops.rotate (rcvCorrected ops x y cfg) ((resolvedDegs cfg).getD i 0))
            (-((resolvedLags cfg x.length).getD j 0))))
        (resolvedWindow cfg x.length))).1 ∧
    get2 (grideigval ops eig x y cfg).2.2.1 j i 0 =
      (eig (ops.chop
        (srccorrApply ops cfg
          (ops.lag
            (ops.rotate (rcvCorrected ops x y cfg) ((resolvedDegs cfg).getD i 0))
            (-((resolvedLags cfg x.length).getD j 0))))
        (resolvedWindow cfg x.length))).2 := by
  unfold grideigval get2
  constructor
  · rw [getD_range_map _ _ _ _ hj, getD_range_map _ _ _ _ hi]
    rfl
  · rw [getD_range_map _ _ _ _ hj, getD_range_map _ _ _ _ hi]
    rfl

/-- Witness for C1: a concrete instantiation with a one-cell grid. -/
theorem grideigval_cell_order_witness :
    (0 < (resolvedLags ⟨some [0], some [5], some ⟨1, 0, none⟩, none, none⟩ 2).length) ∧
    (0 < (resolvedDegs ⟨some [0], some [5], some ⟨1, 0, none⟩, none, none⟩).length) ∧
    (get2 (grideigval ⟨fun p _ => p, fun p _ => p, fun p _ _ => p, fun p _ => p⟩
        (fun _ => ((0 : ℝ), (1 : ℝ))) [1, 2] [3, 4]
        ⟨some [0], some [5], some ⟨1, 0, none⟩, none, none⟩).2.2.2.1 0 0 0 =
      ((fun (_ : TracePair) => ((0 : ℝ), (1 : ℝ)))
        ((⟨fun p _ => p, fun p _ => p, fun p _ _ => p, fun p _ => p⟩ : CoreOps).chop
          (srccorrApply ⟨fun p _ => p, fun p _ => p, fun p _ _ => p, fun p _ => p⟩
            ⟨some [0], some [5], some ⟨1, 0, none⟩, none, none⟩
            ((⟨fun p _ => p, fun p _ => p, fun p _ _ => p, fun p _ => p⟩ : CoreOps).lag
              ((⟨fun p _ => p, fun p _ => p, fun p _ _ => p, fun p _ => p⟩ : CoreOps).rotate
                (rcvCorrected ⟨fun p _ => p, fun p _ => p, fun p _ _ => p, fun p _ => p⟩
                  [1, 2] [3, 4] ⟨some [0], some [5], some ⟨1, 0, none⟩, none, none⟩)
                ((resolvedDegs ⟨some [0], some [5], some ⟨1, 0, none⟩, none, none⟩).getD 0 0))
              (-((resolvedLags ⟨some [0], some [5], some ⟨1, 0, none⟩, none, none⟩ 2).getD 0 0))))
          (resolvedWindow ⟨some [0], some [5], some ⟨1, 0, none⟩, none, none⟩ 2))).1) := by
  refine ⟨by decide, by decide, ?_⟩
  exact (grideigval_cell_order ⟨fun p _ => p, fun p _ => p, fun p _ _ => p, fun p _ => p⟩
    (fun _ => ((0 : ℝ), (1 : ℝ))) [1, 2] [3, 4]
    ⟨some [0], some [5], some ⟨1, 0, none⟩, none, none⟩ 0 0 (by decide) (by decide)).1

/-- C2.  For every 2×N input with equal channel lengths N ≥ 2, the
covariance eigensolver returns two roots of the covariance characteristic
polynomial sorted ascending (λ2 first), both nonnegative; consequently, in
a grid search whose eigensolver is `eigvalcov` and whose per-cell windowed
pairs are well formed, every surface cell satisfies λ1 ≥ λ2 ≥ 0. -/
theorem eigvalcov_sorted_nonneg :
    (∀ xs ys : List ℝ, ys.length = xs.length → 2 ≤ xs.length →
      covCharval xs ys (eigvalcov xs ys).1 = 0 ∧
      covCharval xs ys (eigvalcov xs ys).2 = 0 ∧
      0 ≤ (eigvalcov xs ys).1 ∧
      (eigvalcov xs ys).1 ≤ (eigvalcov xs ys).2) ∧
    (∀ (ops : CoreOps) (x y : List ℝ) (cfg : GridConfig),
      (∀ j i, j < (resolvedLags cfg x.length).length → i < (resolvedDegs cfg).length →
        goodPair (cellInput ops x y cfg j i)) →
      ∀ j i, j < (resolvedLags cfg x.length).length → i < (resolvedDegs cfg).length →
        0 ≤ get2 (grideigval ops (fun p => eigvalcov p.1 p.2) x y cfg).2.2.2.1 j i 0 ∧
        get2 (grideigval ops (fun p => eigvalcov p.1 p.2) x y cfg).2.2.2.1 j i 0 ≤
          get2 (grideigval ops (fun p => eigvalcov p.1 p.2) x y cfg).2.2.1 j i 0) := by
  constructor
  · exact fun xs ys hlen h2 => eigvalcov_spec xs ys hlen h2
  · intro ops x y cfg hcells j i hj hi
    obtain ⟨hg1, hg2⟩ :=
      grideigval_cell_eq ops (fun p => eigvalcov p.1 p.2) x y cfg j i hj hi
    obtain ⟨hlenc, h2c⟩ := hcells j i hj hi
    obtain ⟨_, _, hnn, hle⟩ :=
      eigvalcov_spec (cellInput ops x y cfg j i).1 (cellInput ops x y cfg j i).2 hlenc h2c
    rw [hg1, hg2]
    exact ⟨hnn, hle⟩

/-- Witness for C2: the eigensolver contract at a concrete two-sample pair,
and the surface invariant at the single cell of a concrete one-cell
search. -/
theorem eigvalcov_sorted_nonneg_witness :
    (0 ≤ (eigvalcov [1, 2] [3, 5]).1 ∧
      (eigvalcov [1, 2] [3, 5]).1 ≤ (eigvalcov [1, 2] [3, 5]).2) ∧
    (0 ≤ get2 (grideigval ⟨fun p _ => p, fun p _ => p, fun p _ _ => p, fun p _ => p⟩
        (fun p => eigvalcov p.1 p.2) [1, 2] [3, 4]
        ⟨some [0], some [0], some ⟨1, 0, none⟩, none, none⟩).2.2.2.1 0 0 0) := by
  have h1 := eigvalcov_sorted_nonneg.1 [1, 2] [3, 5] rfl (le_refl 2)
  have h2 := eigvalcov_sorted_nonneg.2
    ⟨fun p _ => p, fun p _ => p, fun p _ _ => p, fun p _ => p⟩ [1, 2] [3, 4]
    ⟨some [0], some [0], some ⟨1, 0, none⟩, none, none⟩
    (fun j i _ _ => ⟨rfl, le_refl 2⟩) 0 0 (by decide) (by decide)
  exact ⟨⟨h1.2.2.1, h1.2.2.2⟩, h2.1⟩

theorem foldl_bestStep_mem (l : List ((ℕ × ℕ) × (ℝ × ℝ)))
    (acc : Option ((ℕ × ℕ) × (ℝ × ℝ))) (c : (ℕ × ℕ) × (ℝ × ℝ))
    (h : l.foldl bestStep acc = some c) : acc = some c ∨ c ∈ l := by
  induction l generalizing acc with
  | nil => exact Or.inl h
  | cons a t ih =>
    rw [List.foldl_cons] at h
    rcases ih (bestStep acc a) h with h' | h'
    · cases acc with
      | none =>
        refine Or.inr ?_
        have : a = c := by simpa [bestStep] using h'
        simp [this]
      | some b =>
        rw [show bestStep (some b) a
          = if b.2.1 / b.2.2 < a.2.1 / a.2.2 then some a else some b from rfl] at h'
        by_cases hba : b.2.1 / b.2.2 < a.2.1 / a.2.2
        · rw [if_pos hba] at h'
          refine Or.inr ?_
          have : a = c := Option.some.inj h'
          simp [this]
        · rw [if_neg hba] at h'
          exact Or.inl h'
    · exact Or.inr (List.mem_cons_of_mem a h')

/-- C3.  The optimum-location step never selects a zero-variance cell
(λ1 = λ2 = 0, whose quality ratio is undefined): whenever it reports an
index, the surfaces at that index are not both zero, so no undefined
ratio reaches the reported optimal angle and delay. -/
theorem max_idx_not_zero_variance (lam1 lam2 : List (List ℝ)) (r : ℕ × ℕ)
    (h : max_idx lam1 lam2 = some r) :
    ¬(get2 lam1 r.1 r.2 0 = 0 ∧ get2 lam2 r.1 r.2 0 = 0) := by
  unfold max_idx at h
  obtain ⟨c, hc, hcr⟩ := Option.map_eq_some'.mp h
  rcases foldl_bestStep_mem _ none c hc with h' | h'
  · exact absurd h' (by simp)
  · have hmem := List.mem_filter.mp h'
    have hcomp : competitive c.2 := @of_decide_eq_true _ (Classical.propDecidable _) hmem.2
    obtain ⟨j, hj, hcell⟩ := List.mem_flatMap.mp hmem.1
    obtain ⟨i, hi, hceq⟩ := List.mem_map.mp hcell
    subst hceq
    obtain rfl : (j, i) = r := hcr
    exact hcomp

/-- Witness for C3: on a one-cell pair of surfaces with a nonzero cell the
optimum is located at that cell, and it is not a zero-variance cell. -/
theorem max_idx_not_zero_variance_witness :
    max_idx [[(1 : ℝ)]] [[(1 : ℝ)]] = some (0, 0) ∧
    ¬(get2 [[(1 : ℝ)]] 0 0 0 = 0 ∧ get2 [[(1 : ℝ)]] 0 0 0 = 0) := by
  have hdec : (@decide (competitive ((1 : ℝ), (1 : ℝ))) (Classical.propDecidable _)) = true :=
    @decide_eq_true _ (Classical.propDecidable _) (by simp [competitive])
  have hcells : cells [[(1 : ℝ)]] [[(1 : ℝ)]] = [((0, 0), ((1 : ℝ), (1 : ℝ)))] := rfl
  have hsel : max_idx [[(1 : ℝ)]] [[(1 : ℝ)]] = some (0, 0) := by
    unfold max_idx
    rw [hcells, List.filter_cons]
    rw [if_pos (show @decide (competitive (((0, 0) : ℕ × ℕ), ((1 : ℝ), (1 : ℝ))).2)
      (Classical.propDecidable _) = true from hdec)]
    simp [bestStep]
  exact ⟨hsel, max_idx_not_zero_variance [[(1 : ℝ)]] [[(1 : ℝ)]] (0, 0) hsel⟩

/-- C4, counterexample.  `grideigval` performs no configuration
validation: with an empty candidate angle grid — an invalid (empty-grid)
configuration — it is not rejected with an error; it completes normally
and returns a degenerate result with empty surface rows. -/
theorem grideigval_no_validation_counterexample :
    grideigval ⟨fun p _ => p, fun p _ => p, fun p _ _ => p, fun p _ => p⟩
      (fun _ => ((0 : ℝ), (0 : ℝ))) [1, 2] [3, 4]
      ⟨some [0], some [], some ⟨1, 0, none⟩, none, none⟩
      = ([[]], [[]], [[]], [[]], ⟨1, 0, none⟩) := rfl

/-- C4, amended.  No configuration validation exists in the excerpted
search: an empty candidate angle grid is not rejected before (or during)
the scan; the search completes normally, never invokes the eigensolver
(the result does not depend on it), and returns surfaces all of whose
rows are empty. -/
theorem grideigval_no_validation (ops : CoreOps) (eig eig' : TracePair → ℝ × ℝ)
    (x y : List ℝ) (lagsv : List ℤ) (w : Window) (rcv src : Option (ℚ × ℤ)) :
    grideigval ops eig x y ⟨some lagsv, some [], some w, rcv, src⟩
      = grideigval ops eig' x y ⟨some lagsv, some [], some w, rcv, src⟩ ∧
    (grideigval ops eig x y ⟨some lagsv, some [], some w, rcv, src⟩).2.2.2.1
      = List.replicate lagsv.length [] ∧
    (grideigval ops eig x y ⟨some lagsv, some [], some w, rcv, src⟩).2.2.1
      = List.replicate lagsv.length [] := by
  refine ⟨rfl, ?_, ?_⟩ <;>
  · show (List.range lagsv.length).map _ = _
    rw [List.eq_replicate_iff]
    constructor
    · simp
    · intro b hb
      obtain ⟨j, _, hj⟩ := List.mem_map.mp hb
      exact hj.symm

/-- C5, counterexample.  For the λ2 surface `[[4]]` and `ndf = 1 ≤ 2`, the
confidence-threshold computation neither fails nor yields a non-finite
result: with a quantile oracle that is NaN exactly on scipy's invalid
domain (`d ≤ 0`), `ftest` silently returns a finite — and wrong, here
negative — threshold. -/
theorem ftest_no_guard_counterexample :
    (1 : ℝ) ≤ 2 ∧
    ftest ppfStub [[(4 : ℝ)]] 1 (1/20)
      = some ((4 : ℝ) * (1 + 2 / (1 - 2) * ((1 - 1/20) + 2 + 199))) ∧
    (4 : ℝ) * (1 + 2 / (1 - 2) * ((1 - 1/20) + 2 + 199)) < 0 := by
  refine ⟨by norm_num, ?_, by norm_num⟩
  unfold ftest ppfStub
  rw [if_neg (by norm_num : ¬(1 : ℝ) ≤ 0)]
  show (if (1 : ℝ) - 2 = 0 then none
    else some (listMin ([[(4 : ℝ)]].flatten) * (1 + 2 / (1 - 2) * (1 - 1/20 + 2 + 199)))) = _
  rw [if_neg (by norm_num : ¬(1 : ℝ) - 2 = 0)]
  rw [show listMin ([[(4 : ℝ)]].flatten) = 4 from rfl]

/-- C5, amended.  The confidence-threshold computation yields a
non-finite/undefined result for `ndf ≤ 0` (the quantile lookup is outside
the F-distribution domain) and for `ndf = 2` (the division `k/(ndf-k)`
degenerates); for `0 < ndf < 2` it instead silently returns a finite but
wrong threshold (see the counterexample). -/
theorem ftest_degenerate_ndf (ppf : ℝ → ℝ → ℝ → Option ℝ)
    (hdom : ∀ q k d, d ≤ 0 → ppf q k d = none)
    (lam2 : List (List ℝ)) (ndfv alpha : ℝ) (h : ndfv ≤ 0 ∨ ndfv = 2) :
    ftest ppf lam2 ndfv alpha = none := by
  unfold ftest
  rcases h with h | h
  · rw [hdom (1 - alpha) 2 ndfv h]
  · subst h
    cases hp : ppf (1 - alpha) 2 2 with
    | none => rfl
    | some F =>
      show (if (2 : ℝ) - 2 = 0 then none
        else some (listMin lam2.flatten * (1 + 2 / (2 - 2) * F))) = none
      rw [if_pos (by norm_num : (2 : ℝ) - 2 = 0)]

/-- Witness for the amended C5 theorem, at `ndf = 2`. -/
theorem ftest_degenerate_ndf_witness :
    ftest ppfStub [[(4 : ℝ)]] 2 (1/20) = none :=
  ftest_degenerate_ndf ppfStub
    (fun _ _ d hd => by unfold ppfStub; rw [if_pos hd])
    [[(4 : ℝ)]] 2 (1/20) (Or.inr rfl)

theorem snr_ratio_form (p q : ℝ) (hq : q ≠ 0) : (p - q) / (2 * q) = (p / q - 1) / 2 := by
  rw [div_sub_one hq, div_div, mul_comm q 2]

theorem foldl_max_init_le (t : List ℝ) (a : ℝ) : a ≤ t.foldl max a := by
  induction t generalizing a with
  | nil => exact le_refl a
  | cons b t ih =>
    rw [List.foldl_cons]
    exact le_trans (le_max_left a b) (ih (max a b))

theorem le_foldl_max (t : List ℝ) (a x : ℝ) (hx : x ∈ t) : x ≤ t.foldl max a := by
  induction t generalizing a with
  | nil => exact absurd hx (List.not_mem_nil x)
  | cons b t ih =>
    rw [List.foldl_cons]
    rcases List.mem_cons.mp hx with h | h
    · rw [h]
      exact le_trans (le_max_right a b) (foldl_max_init_le t (max a b))
    · exact ih (max a b) h

theorem foldl_max_cases (t : List ℝ) (a : ℝ) : t.foldl max a = a ∨ t.foldl max a ∈ t := by
  induction t generalizing a with
  | nil => exact Or.inl rfl
  | cons b t ih =>
    rw [List.foldl_cons]
    rcases ih (max a b) with h | h
    · rcases max_choice a b with hm | hm
      · exact Or.inl (h.trans hm)
      · exact Or.inr (by rw [h, hm]; exact List.mem_cons_self b t)
    · exact Or.inr (List.mem_cons_of_mem b h)

theorem le_listMax (l : List ℝ) (x : ℝ) (hx : x ∈ l) : x ≤ listMax l := by
  cases l with
  | nil => exact absurd hx (List.not_mem_nil x)
  | cons h t =>
    rcases List.mem_cons.mp hx with h' | h'
    · exact h' ▸ foldl_max_init_le t h
    · exact le_foldl_max t h x h'

theorem listMax_mem (l : List ℝ) (h : l ≠ []) : listMax l ∈ l := by
  cases l with
  | nil => exact absurd rfl h
  | cons a t =>
    rcases foldl_max_cases t a with h' | h'
    · rw [show listMax (a :: t) = t.foldl max a from rfl, h']
      exact List.mem_cons_self a t
    · rw [show listMax (a :: t) = t.foldl max a from rfl]
      exact List.mem_cons_of_mem a h'

/-- C6.  When the λ2 surface is elementwise positive, the second
signal-to-noise estimate `np.max((lam1-lam2)/(2*lam2))` equals
`(λ1 - λ2)/(2·λ2)` evaluated at any cell that maximizes the quality ratio
λ1/λ2 — the two surfaces are maximized at the same cell because the map
`r ↦ (r - 1)/2` is monotone. -/
theorem snr_max_at_optimum (lam1 lam2 : List (List ℝ))
    (hlen : lam2.flatten.length = lam1.flatten.length)
    (hpos : ∀ z ∈ lam2.flatten, 0 < z)
    (k : ℕ) (hk : k < lam1.flatten.length)
    (hopt : ∀ m, m < lam1.flatten.length →
      lam1.flatten.getD m 0 / lam2.flatten.getD m 0
        ≤ lam1.flatten.getD k 0 / lam2.flatten.getD k 0) :
    snrSurfMax lam1 lam2
      = (lam1.flatten.getD k 0 - lam2.flatten.getD k 0)
          / (2 * lam2.flatten.getD k 0) := by
  set L1 := lam1.flatten with hL1
  set L2 := lam2.flatten with hL2
  set n := L1.length with hn
  set zl := List.zipWith (fun a b => (a - b) / (2 * b)) L1 L2 with hzl
  have hzlen : zl.length = n := by
    rw [hzl, List.length_zipWith, hlen, min_self]
  have hcell : ∀ m, m < n →
      zl.getD m 0 = (L1.getD m 0 - L2.getD m 0) / (2 * L2.getD m 0) := by
    intro m hm
    have hm1 : m < L1.length := hm
    have hm2 : m < L2.length := by rw [hlen]; exact hm
    have hmz : m < zl.length := by rw [hzlen]; exact hm
    rw [List.getD_eq_getElem?_getD, List.getElem?_eq_getElem hmz,
      List.getD_eq_getElem?_getD, List.getElem?_eq_getElem hm1,
      List.getD_eq_getElem?_getD, List.getElem?_eq_getElem hm2]
    simp [hzl, List.getElem_zipWith]
  have hval : ∀ m, m < n →
      zl.getD m 0 = (L1.getD m 0 / L2.getD m 0 - 1) / 2 := by
    intro m hm
    have h2 : 0 < L2.getD m 0 := by
      apply hpos
      have hm2 : m < L2.length := by rw [hlen]; exact hm
      rw [List.getD_eq_getElem?_getD, List.getElem?_eq_getElem hm2]
      exact List.getElem_mem hm2
    rw [hcell m hm, snr_ratio_form _ _ (ne_of_gt h2)]
  have hmemval : ∀ x ∈ zl, ∃ m, m < n ∧ zl.getD m 0 = x := by
    intro x hx
    obtain ⟨m, hm, hxm⟩ := List.getElem_of_mem hx
    refine ⟨m, by rw [← hzlen]; exact hm, ?_⟩
    rw [List.getD_eq_getElem?_getD, List.getElem?_eq_getElem hm, hxm]
    rfl
  have hknz : k < zl.length := by rw [hzlen]; exact hk
  have hkmem : zl.getD k 0 ∈ zl := by
    rw [List.getD_eq_getElem?_getD, List.getElem?_eq_getElem hknz]
    exact List.getElem_mem hknz
  have hub : ∀ x ∈ zl, x ≤ zl.getD k 0 := by
    intro x hx
    obtain ⟨m, hm, hxm⟩ := hmemval x hx
    rw [← hxm, hval m hm, hval k hk]
    have := hopt m hm
    linarith
  have hmax : listMax zl = zl.getD k 0 :=
    le_antisymm
      (hub (listMax zl) (listMax_mem zl (by
        intro hnil
        rw [hnil] at hzlen
        simp at hzlen
        omega)))
      (le_listMax zl (zl.getD k 0) hkmem)
  rw [show snrSurfMax lam1 lam2 = listMax zl from rfl, hmax, hcell k hk]

/-- Witness for C6: a one-cell surface pair with λ1 = 3, λ2 = 1. -/
theorem snr_max_at_optimum_witness :
    ([[(1 : ℝ)]].flatten.length = [[(3 : ℝ)]].flatten.length) ∧
    snrSurfMax [[(3 : ℝ)]] [[(1 : ℝ)]]
      = ([[(3 : ℝ)]].flatten.getD 0 0 - [[(1 : ℝ)]].flatten.getD 0 0)
          / (2 * [[(1 : ℝ)]].flatten.getD 0 0) := by
  refine ⟨rfl, ?_⟩
  refine snr_max_at_optimum [[(3 : ℝ)]] [[(1 : ℝ)]] rfl ?_ 0 (by decide) ?_
  · intro z hz
    have : z = 1 := by simpa using hz
    rw [this]
    norm_num
  · intro m hm
    have hm1 : m = 0 := by simpa using hm
    rw [hm1]

theorem degs_count : (⌈((90 : ℚ) - (-90)) / 3⌉.toNat) = 60 := by
  norm_num
  rfl

theorem rint_nonneg (q : ℚ) (h : 0 ≤ q) : 0 ≤ rint q := by
  have hf : 0 ≤ ⌊q⌋ := Int.floor_nonneg.mpr h
  unfold rint
  split_ifs <;> omega

theorem npUnique_mem (l : List ℤ) (x : ℤ) : x ∈ npUnique l ↔ x ∈ l := by
  unfold npUnique
  rw [List.mem_dedup]
  exact (List.perm_insertionSort _ l).mem_iff

theorem npUnique_ascending (l : List ℤ) : List.Pairwise (· < ·) (npUnique l) := by
  have hs : List.Sorted (· ≤ ·) (l.insertionSort (· ≤ ·)) := List.sorted_insertionSort _ l
  have hsub : List.Sublist (l.insertionSort (· ≤ ·)).dedup (l.insertionSort (· ≤ ·)) :=
    List.dedup_sublist _
  have hle : List.Pairwise (· ≤ ·) (npUnique l) := hs.sublist hsub
  have hne : List.Pairwise (· ≠ ·) (npUnique l) := List.nodup_dedup _
  exact (hle.and hne).imp (fun h => lt_of_le_of_ne h.1 h.2)

/-- C7.  With every option omitted, the search uses exactly the derived
defaults: angle candidates every 3° over `[-90, 90)`; delay candidates
built from 30 linearly spaced values running from `0` up to the evened
`N/10`, each mapped to `2·rint(k/2)` (hence nonnegative and even) and then
deduplicated into a strictly ascending list; and an analysis window of
about `N/2` samples rounded up to an odd count at zero offset. -/
theorem grideigval_defaults (N : ℕ) (rcv src : Option (ℚ × ℤ)) :
    (resolvedLags ⟨none, none, none, rcv, src⟩ N = defaultLags N ∧
     resolvedDegs ⟨none, none, none, rcv, src⟩ = defaultDegs ∧
     resolvedWindow ⟨none, none, none, rcv, src⟩ N = defaultWindow N) ∧
    (defaultDegs.length = 60 ∧
     (∀ i, i < 60 → defaultDegs.getD i 0 = -90 + 3 * (i : ℚ)) ∧
     (∀ d ∈ defaultDegs, -90 ≤ d ∧ d < 90)) ∧
    ((defaultLagsRaw N).length = 30 ∧
     defaultLagsRaw N = (linspace 0 ((maxlagDef N : ℚ)) 30).map (fun k => 2 * rint (k / 2)) ∧
     (linspace 0 ((maxlagDef N : ℚ)) 30).getD 0 0 = 0 ∧
     (linspace 0 ((maxlagDef N : ℚ)) 30).getD 29 0 = (maxlagDef N : ℚ) ∧
     N / 10 ≤ maxlagDef N ∧ maxlagDef N ≤ N / 10 + 1 ∧ maxlagDef N % 2 = 0 ∧
     (∀ l ∈ defaultLags N, 0 ≤ l ∧ 2 ∣ l) ∧
     List.Pairwise (· < ·) (defaultLags N)) ∧
    ((defaultWindow N).offset = 0 ∧ (defaultWindow N).nsamps % 2 = 1 ∧
     N / 2 ≤ (defaultWindow N).nsamps ∧ (defaultWindow N).nsamps ≤ N / 2 + 1) := by
  refine ⟨⟨?_, ?_, ?_⟩, ⟨?_, ?_, ?_⟩, ⟨?_, ?_, ?_, ?_, ?_, ?_, ?_, ?_, ?_⟩, ?_⟩
  · simp [resolvedLags]
  · simp [resolvedDegs]
  · simp [resolvedWindow]
  · -- angle grid length
    rw [defaultDegs, arange]
    rw [degs_count]
    simp
  · -- angle grid entries
    intro i hi
    rw [defaultDegs, arange, degs_count, getD_range_map 60 _ i 0 hi]
    ring
  · -- angle grid bounds
    intro d hd
    rw [defaultDegs, arange] at hd
    obtain ⟨i, hi, hdi⟩ := List.mem_map.mp hd
    rw [List.mem_range, degs_count] at hi
    have hiq : (i : ℚ) ≤ 59 := by exact_mod_cast Nat.lt_succ_iff.mp hi
    have hiq0 : (0 : ℚ) ≤ (i : ℚ) := Nat.cast_nonneg i
    constructor <;> linarith [hdi]
  · -- raw lag list length
    rw [defaultLagsRaw, linspace]
    simp
  · -- raw lag list in the claim form 2 * rint(k/2) over 0..maxlag
    rw [defaultLagsRaw, linspace, linspace, List.map_map, List.map_map]
    refine List.map_congr_left (fun i hi => ?_)
    simp only [Function.comp_apply]
    congr 1
    congr 1
    ring
  · -- linspace starts at 0
    rw [linspace, getD_range_map 30 _ 0 0 (by norm_num)]
    norm_num
  · -- linspace ends at maxlag
    rw [linspace, getD_range_map 30 _ 29 0 (by norm_num)]
    have h29 : ((30 : ℕ) : ℚ) - 1 = 29 := by norm_num
    rw [h29]
    field_simp
  · -- maxlag lower bound
    rw [maxlagDef]
    split_ifs <;> omega
  · -- maxlag upper bound
    rw [maxlagDef]
    split_ifs <;> omega
  · -- maxlag is even
    rw [maxlagDef]
    split_ifs <;> omega
  · -- default lags are nonnegative and even
    intro l hl
    rw [defaultLags, npUnique_mem, defaultLagsRaw] at hl
    obtain ⟨q, hq, hlq⟩ := List.mem_map.mp hl
    rw [linspace] at hq
    obtain ⟨i, _, hqi⟩ := List.mem_map.mp hq
    have hq0 : 0 ≤ q := by
      rw [← hqi]
      have hm0 : (0 : ℚ) ≤ (maxlagDef N : ℚ) := Nat.cast_nonneg _
      have hi0 : (0 : ℚ) ≤ (i : ℚ) := Nat.cast_nonneg i
      have h29 : ((30 : ℕ) : ℚ) - 1 = 29 := by norm_num
      rw [h29]
      simp only [sub_zero, zero_add]
      positivity
    constructor
    · rw [← hlq]
      have := rint_nonneg q hq0
      omega
    · rw [← hlq]
      exact ⟨rint q, rfl⟩
  · -- default lags strictly ascending
    exact npUnique_ascending _
  · -- window shape
    simp only [defaultWindow]
    refine ⟨trivial, ?_, ?_, ?_⟩ <;> split_ifs <;> omega

/-- Witness for C7: the inner bounded statements instantiated at
`N = 100` and angle index 3. -/
theorem grideigval_defaults_witness :
    defaultDegs.getD 3 0 = -90 + 3 * ((3 : ℕ) : ℚ) ∧
    (defaultLagsRaw 100).length = 30 ∧
    (defaultWindow 100).nsamps % 2 = 1 := by
  have h := grideigval_defaults 100 none none
  exact ⟨h.2.1.2.1 3 (by norm_num), h.2.2.1.1, h.2.2.2.2.1⟩

theorem sum_zipWith_getD (f : ℝ → ℝ → ℝ) (l1 l2 : List ℝ) (h : l1.length = l2.length) :
    (List.zipWith f l1 l2).sum
      = ∑ i ∈ Finset.range l1.length, f (l1.getD i 0) (l2.getD i 0) := by
  induction l1 generalizing l2 with
  | nil => simp
  | cons a t ih =>
    cases l2 with
    | nil => simp at h
    | cons b t2 =>
      have h' : t.length = t2.length := by simpa using h
      simp only [List.zipWith_cons_cons, List.sum_cons, List.length_cons,
        Finset.sum_range_succ', List.getD_cons_succ, List.getD_cons_zero, ih t2 h']
      exact add_comm _ _

theorem weightList_length (N : ℕ) : (weightList N).length = N := by
  simp [weightList]

theorem weightList_getD (N k : ℕ) (hk : k < N) :
    (weightList N).getD k 0 = endpointWeight N k := by
  have hlen : (weightList N).length = N := weightList_length N
  rw [List.getD_eq_getElem?_getD, List.getElem?_eq_getElem (by rw [hlen]; exact hk)]
  unfold weightList endpointWeight
  simp only [Option.getD_some, List.getElem_set, List.getElem_replicate]
  rcases eq_or_ne k 0 with h0 | h0
  · rcases eq_or_ne (N - 1) 0 with h1 | h1
    · rw [if_pos (h1.trans h0.symm), if_pos (Or.inl h0.symm.symm)]
    · rw [if_neg (by omega), if_pos h0.symm, if_pos (Or.inl h0)]
  · rcases eq_or_ne k (N - 1) with h1 | h1
    · rw [if_pos h1.symm, if_pos (Or.inr h1)]
    · rw [if_neg (by omega), if_neg (by omega), if_neg (by push_neg; exact ⟨h0, h1⟩)]

theorem ampList_length (y : List ℝ) : (ampList y).length = y.length := by
  simp [ampList]

theorem ampList_getD (y : List ℝ) (k : ℕ) (hk : k < y.length) :
    (ampList y).getD k 0 = Complex.abs (dft y k) := by
  unfold ampList
  exact getD_range_map _ _ _ _ hk

/-- The spectral core of the estimator, in the explicit-moment form of the
spec: `ndf = 2·(2·E2²/E4 − 1)` with the endpoint-halved moments. -/
theorem ndfCore_eq_moments (z : List ℝ) :
    ndfCore z = 2 * (2 * E2spec z ^ 2 / E4spec z - 1) := by
  have hlen : (weightList z.length).length = (ampList z).length := by
    rw [weightList_length, ampList_length]
  have h2 : (List.zipWith (fun w v => w * v ^ 2) (weightList z.length) (ampList z)).sum
      = E2spec z := by
    rw [sum_zipWith_getD _ _ _ hlen, weightList_length, E2spec]
    refine Finset.sum_congr rfl (fun k hk => ?_)
    have hk' := Finset.mem_range.mp hk
    rw [weightList_getD _ _ hk', ampList_getD _ _ hk']
  have h4 : (List.zipWith (fun w v => 4 * w ^ 2 / 3 * v ^ 4)
        (weightList z.length) (ampList z)).sum = E4spec z := by
    rw [sum_zipWith_getD _ _ _ hlen, weightList_length, E4spec]
    refine Finset.sum_congr rfl (fun k hk => ?_)
    have hk' := Finset.mem_range.mp hk
    rw [weightList_getD _ _ hk', ampList_getD _ _ hk']
  rw [ndfCore, h2, h4]

/-- C8.  For every noise sequence and preprocessing configuration, the
degrees-of-freedom estimator equals exactly `2·(2·E2²/E4 − 1)`, where `E2`
and `E4` are the second and fourth moments of the amplitude spectrum of
the (optionally windowed and detrended) sequence with the endpoint bins
weighted by one half. -/
theorem ndf_walsh_formula (detrendF : List ℝ → List ℝ)
    (chopNoise : Window → List ℝ → List ℝ) (y : List ℝ)
    (window : Option Window) (detrend : Bool) :
    ndf detrendF chopNoise y window detrend
      = 2 * (2 * E2spec (noiseInput detrendF chopNoise y window detrend) ^ 2
          / E4spec (noiseInput detrendF chopNoise y window detrend) - 1) :=
  ndfCore_eq_moments _

theorem zipWith_left (x y : List ℝ) (h : x.length = y.length) :
    List.zipWith (fun a _ => a) x y = x := by
  induction x generalizing y with
  | nil => simp
  | cons a t ih =>
    cases y with
    | nil => simp at h
    | cons b t2 =>
      simp only [List.zipWith_cons_cons]
      rw [ih t2 (by simpa using h)]

theorem zipWith_right (x y : List ℝ) (h : x.length = y.length) :
    List.zipWith (fun _ b => b) x y = y := by
  induction x generalizing y with
  | nil =>
    cases y with
    | nil => simp
    | cons b t2 => simp at h
  | cons a t ih =>
    cases y with
    | nil => simp at h
    | cons b t2 =>
      simp only [List.zipWith_cons_cons]
      rw [ih t2 (by simpa using h)]

/-- C9, counterexample.  The caller-supplied trace pair is not left intact:
`EigenM.__init__` aliases the caller's `Pair` and canonicalizes it in
place to the zero-degree reference orientation, so a pair handed in at 90°
orientation does not hold its original state after the call (its
orientation has changed). -/
theorem eigenM_mutates_caller_pair :
    eigenMFinalData ⟨[(1 : ℝ)], [(2 : ℝ)], 90⟩ ≠ (⟨[(1 : ℝ)], [(2 : ℝ)], 90⟩ : Pair) := by
  intro h
  have h0 : (0 : ℚ) = 90 := congrArg Pair.ang h
  exact absurd h0 (by norm_num)

/-- C9, amended.  The caller-supplied pair is not read-only: the
constructor rotates it in place to the zero-degree reference orientation
(`self.data.rotateto(0)` on the aliased `self.data = args[0]`).  After the
call the caller's pair is at orientation zero, and it holds exactly its
original state only in the special case where it was already at zero
orientation (well-formed, equal-length channels), the rotation then being
by zero degrees. -/
theorem eigenM_canonicalizes_caller_pair (p : Pair) :
    (eigenMFinalData p).ang = 0 ∧
    (p.ang = 0 → p.x.length = p.y.length → eigenMFinalData p = p) := by
  obtain ⟨x, y, ang⟩ := p
  refine ⟨rfl, fun hang hlen => ?_⟩
  have hang' : ang = 0 := hang
  subst hang'
  unfold eigenMFinalData rotateto rotateSamples
  norm_num
  exact ⟨zipWith_left x y hlen, zipWith_right x y hlen⟩

/-- Witness for the amended C9 theorem: a concrete pair already at zero
orientation is preserved. -/
theorem eigenM_canonicalizes_caller_pair_witness :
    (eigenMFinalData ⟨[(1 : ℝ), 2], [(3 : ℝ), 4], 0⟩).ang = 0 ∧
    eigenMFinalData ⟨[(1 : ℝ), 2], [(3 : ℝ), 4], 0⟩ = (⟨[(1 : ℝ), 2], [(3 : ℝ), 4], 0⟩ : Pair) :=
  ⟨(eigenM_canonicalizes_caller_pair ⟨[(1 : ℝ), 2], [(3 : ℝ), 4], 0⟩).1,
   (eigenM_canonicalizes_caller_pair ⟨[(1 : ℝ), 2], [(3 : ℝ), 4], 0⟩).2 rfl rfl⟩

theorem mem_zipWith {α β γ : Type} (f : α → β → γ) (x : List α) (y : List β) (z : γ)
    (hz : z ∈ List.zipWith f x y) : ∃ a ∈ x, ∃ b ∈ y, z = f a b := by
  induction x generalizing y with
  | nil => simp at hz
  | cons a t ih =>
    cases y with
    | nil => simp at hz
    | cons b t2 =>
      rw [List.zipWith_cons_cons] at hz
      rcases List.mem_cons.mp hz with h | h
      · exact ⟨a, List.mem_cons_self a t, b, List.mem_cons_self b t2, h⟩
      · obtain ⟨a', ha, b', hb, rfl⟩ := ih t2 h
        exact ⟨a', List.mem_cons_of_mem a ha, b', List.mem_cons_of_mem b hb, rfl⟩

theorem roll_subset {α : Type} (l : List α) (k : ℕ) : ∀ x ∈ roll l k, x ∈ l := by
  intro x hx
  unfold roll at hx
  rcases List.mem_append.mp hx with h | h
  · exact List.drop_subset _ _ h
  · exact List.take_subset _ _ h

theorem roll_length {α : Type} (l : List α) (k : ℕ) : (roll l k).length = l.length := by
  unfold roll
  simp only [List.length_append, List.length_drop, List.length_take]
  rcases eq_or_ne l [] with h | h
  · simp [h]
  · have hm : k % l.length < l.length := Nat.mod_lt _ (List.length_pos.mpr h)
    omega

theorem sum_nonneg_list (l : List ℝ) (h : ∀ x ∈ l, 0 ≤ x) : 0 ≤ l.sum := by
  induction l with
  | nil => simp
  | cons a t ih =>
    rw [List.sum_cons]
    have ha := h a (List.mem_cons_self a t)
    have ht := ih (fun x hx => h x (List.mem_cons_of_mem a hx))
    linarith

/-- C10.  When the quality-score surface λ1/λ2 is elementwise positive (on
a nonempty rectangular grid), the self-similarity diagnostic is well
defined and nonnegative: the angle profile is elementwise positive, the
denominator of NI is strictly positive, and NI ≥ 0. -/
theorem ni_wellDefined (lam1 lam2 : List (List ℝ)) (C : ℕ)
    (hne : lam1 ≠ []) (hlen : lam1.length = lam2.length) (hC : 0 < C)
    (hr1 : ∀ r ∈ lam1, r.length = C) (hr2 : ∀ r ∈ lam2, r.length = C)
    (hpos : ∀ z ∈ (scoreSurf lam1 lam2).flatten, 0 < z) :
    (∀ v ∈ fastprofile lam1 lam2, 0 < v) ∧
    0 < (List.zipWith (fun a b => a * b) (fastprofile lam1 lam2)
          (roll (fastprofile lam1 lam2) ((fastprofile lam1 lam2).length / 2))).sum ∧
    0 ≤ ni (fastprofile lam1 lam2) := by
  have hSlen : (scoreSurf lam1 lam2).length = lam1.length := by
    rw [scoreSurf, List.length_zipWith, hlen, min_self]
  have hSne : scoreSurf lam1 lam2 ≠ [] := by
    intro h
    apply hne
    rw [← List.length_eq_zero, ← hSlen, h]
    rfl
  have hSrow : ∀ r ∈ scoreSurf lam1 lam2, r.length = C := by
    intro r hr
    obtain ⟨a, ha, b, hb, rfl⟩ := mem_zipWith _ _ _ _ hr
    rw [List.length_zipWith, hr1 a ha, hr2 b hb, min_self]
  have hShead : ((scoreSurf lam1 lam2).headD []).length = C := by
    cases hS : scoreSurf lam1 lam2 with
    | nil => exact absurd hS hSne
    | cons r t =>
      rw [List.headD_cons]
      exact hSrow r (hS ▸ List.mem_cons_self r t)
  have hcell : ∀ r ∈ scoreSurf lam1 lam2, ∀ i, i < C → 0 < r.getD i 0 := by
    intro r hr i hi
    apply hpos
    rw [List.mem_flatten]
    refine ⟨r, hr, ?_⟩
    have hir : i < r.length := by rw [hSrow r hr]; exact hi
    rw [List.getD_eq_getElem?_getD, List.getElem?_eq_getElem hir]
    exact List.getElem_mem hir
  have hprof : ∀ v ∈ fastprofile lam1 lam2, 0 < v := by
    intro v hv
    rw [fastprofile, colSums, hShead] at hv
    obtain ⟨i, hi, rfl⟩ := List.mem_map.mp hv
    rw [List.mem_range] at hi
    apply List.sum_pos
    · intro x hx
      obtain ⟨row, hrow, rfl⟩ := List.mem_map.mp hx
      exact hcell row hrow i hi
    · simp only [ne_eq, List.map_eq_nil_iff]
      exact hSne
  have hproflen : (fastprofile lam1 lam2).length = C := by
    rw [fastprofile, colSums, hShead]
    simp
  have hrolled : ∀ v ∈ roll (fastprofile lam1 lam2) ((fastprofile lam1 lam2).length / 2), 0 < v :=
    fun v hv => hprof v (roll_subset _ _ v hv)
  have hmult : 0 < (List.zipWith (fun a b => a * b) (fastprofile lam1 lam2)
      (roll (fastprofile lam1 lam2) ((fastprofile lam1 lam2).length / 2))).sum := by
    apply List.sum_pos
    · intro z hz
      obtain ⟨a, ha, b, hb, rfl⟩ := mem_zipWith _ _ _ _ hz
      exact mul_pos (hprof a ha) (hrolled b hb)
    · have hzl : (List.zipWith (fun a b => a * b) (fastprofile lam1 lam2)
          (roll (fastprofile lam1 lam2) ((fastprofile lam1 lam2).length / 2))).length = C := by
        rw [List.length_zipWith, roll_length, hproflen, min_self]
      exact List.length_pos.mp (by rw [hzl]; exact hC)
  refine ⟨hprof, hmult, ?_⟩
  rw [ni]
  apply div_nonneg
  · apply sum_nonneg_list
    intro x hx
    obtain ⟨v, hv, rfl⟩ := List.mem_map.mp hx
    exact sq_nonneg v
  · exact le_of_lt hmult

/-- Witness for C10: a 1×2 surface pair with positive score cells. -/
theorem ni_wellDefined_witness :
    (∀ v ∈ fastprofile [[(2 : ℝ), 4]] [[(1 : ℝ), 2]], 0 < v) ∧
    0 ≤ ni (fastprofile [[(2 : ℝ), 4]] [[(1 : ℝ), 2]]) := by
  have h := ni_wellDefined [[(2 : ℝ), 4]] [[(1 : ℝ), 2]] 2
    (by simp) rfl (by norm_num)
    (by
      intro r hr
      rw [List.mem_singleton] at hr
      rw [hr]
      rfl)
    (by
      intro r hr
      rw [List.mem_singleton] at hr
      rw [hr]
      rfl)
    (by
      intro z hz
      simp only [scoreSurf, List.zipWith_cons_cons, List.zipWith_nil_right,
        List.flatten, List.append_nil] at hz
      rcases List.mem_cons.mp hz with h | h
      · rw [h]
        norm_num
      · rcases List.mem_cons.mp h with h' | h'
        · rw [h']
          norm_num
        · simp at h')
  exact ⟨h.1, h.2.2⟩

end Splitwavepy
